import Mathlib

/-
Verification development for the mmv/mcp batched-rename utility.

The Rust sources are shallowly embedded:
  - paths are lists of components (Unix model, so no Windows volume component),
  - the lexical path cleanup normalize_path (main.rs) becomes a fold over components,
  - the wire codec encode_string and decode_string (main.rs) become functions on
    lists of characters, with the process-exiting error of decode_string modelled
    as Option.none,
  - the execution portion of work (main.rs) becomes a pure function that returns
    the list of filesystem actions it performs and the list of standard-error
    lines it prints,
  - copy_and_remove_file_or_dir (main.rs) additionally gets a stateful model over
    a small filesystem (sets of directory and file paths) so that the failure of
    remove_dir on a non-empty directory can be expressed.
-/

namespace Mmv

/-- Path component, mirroring std::path::Component on Unix.  The Rust Prefix
component exists only on Windows and is not modelled. -/
inductive PComp where
  | rootDir
  | curDir
  | parentDir
  | normal (name : String)
deriving DecidableEq, Repr

/-- A path is the list of components produced by Path::components(). -/
abbrev MPath := List PComp

/-- PathBuf::pop, which truncates a path to its parent: a lone root is kept,
otherwise the last component is dropped. -/
def pbPop (p : MPath) : MPath :=
  match p with
  | [] => []
  | [PComp.rootDir] => [PComp.rootDir]
  | _ => p.dropLast

/-- One step of the loop body of normalize_path (main.rs): RootDir is pushed
(PathBuf::push of an absolute path replaces the whole path), CurDir is dropped,
ParentDir pops the previous component, and a normal component is appended. -/
def normStep (ret : MPath) (c : PComp) : MPath :=
  match c with
  | PComp.rootDir => [PComp.rootDir]
  | PComp.curDir => ret
  | PComp.parentDir => pbPop ret
  | PComp.normal s => ret ++ [PComp.normal s]

/-- normalize_path (main.rs, lines 440-465): purely lexical cleanup of a
component list, starting from the empty PathBuf. -/
def normalize_path (p : MPath) : MPath := p.foldl normStep []

/-- Whether a component is a plain (Normal) component. -/
def isNormalC : PComp → Bool
  | PComp.normal _ => true
  | _ => false

/-- Shape of every value normalize_path can return: an optional leading root
followed only by plain components. -/
def normalizedShape : MPath → Prop
  | [] => True
  | c :: rest => (c = PComp.rootDir ∨ isNormalC c = true) ∧ ∀ x ∈ rest, isNormalC x = true

theorem normalizedShape_pbPop {p : MPath} (h : normalizedShape p) :
    normalizedShape (pbPop p) := by
  match p with
  | [] => exact h
  | [PComp.rootDir] =>
      simpa [pbPop] using h
  | [PComp.curDir] => simp [pbPop, normalizedShape]
  | [PComp.parentDir] => simp [pbPop, normalizedShape]
  | [PComp.normal s] => simp [pbPop, normalizedShape]
  | c :: d :: rest =>
      obtain ⟨h1, h2⟩ := h
      have hdrop : (c :: d :: rest).dropLast = c :: (d :: rest).dropLast := rfl
      have : normalizedShape (c :: (d :: rest).dropLast) := by
        refine ⟨h1, fun x hx => h2 x ?_⟩
        exact (List.dropLast_sublist (d :: rest)).mem hx
      simpa [pbPop, hdrop]

theorem normalizedShape_normStep {p : MPath} (c : PComp) (h : normalizedShape p) :
    normalizedShape (normStep p c) := by
  match c with
  | PComp.rootDir => simp [normStep, normalizedShape]
  | PComp.curDir => exact h
  | PComp.parentDir => exact normalizedShape_pbPop h
  | PComp.normal s =>
      match p with
      | [] => simp [normStep, normalizedShape, isNormalC]
      | x :: rest =>
          obtain ⟨h1, h2⟩ := h
          refine ⟨h1, fun y hy => ?_⟩
          have hy' : y ∈ rest ∨ y = PComp.normal s := by simpa [normStep] using hy
          rcases hy' with hy' | hy'
          · exact h2 y hy'
          · subst hy'; rfl

theorem normalizedShape_foldl :
    ∀ (l : List PComp) (acc : MPath), normalizedShape acc →
      normalizedShape (List.foldl normStep acc l)
  | [], _, h => h
  | c :: l, acc, h =>
      normalizedShape_foldl l (normStep acc c) (normalizedShape_normStep c h)

theorem foldl_normStep_all_normal :
    ∀ (l : List PComp) (acc : MPath), (∀ x ∈ l, isNormalC x = true) →
      List.foldl normStep acc l = acc ++ l
  | [], acc, _ => by simp
  | c :: l, acc, h => by
      have hc : isNormalC c = true := h c (by simp)
      match c with
      | PComp.normal s =>
          have ih := foldl_normStep_all_normal l (acc ++ [PComp.normal s])
            (fun x hx => h x (by simp [hx]))
          simp [normStep, ih]

theorem normalize_path_fixed {p : MPath} (h : normalizedShape p) :
    normalize_path p = p := by
  match p with
  | [] => rfl
  | c :: rest =>
      obtain ⟨h1, h2⟩ := h
      rcases h1 with h1 | h1
      · subst h1
        show List.foldl normStep (normStep [] PComp.rootDir) rest = PComp.rootDir :: rest
        rw [show normStep [] PComp.rootDir = [PComp.rootDir] from rfl,
          foldl_normStep_all_normal rest [PComp.rootDir] h2]
        rfl
      · match c with
        | PComp.normal s =>
            show List.foldl normStep (normStep [] (PComp.normal s)) rest
              = PComp.normal s :: rest
            rw [show normStep [] (PComp.normal s) = [PComp.normal s] from rfl,
              foldl_normStep_all_normal rest [PComp.normal s] h2]
            rfl

theorem head_root_normStep {p : MPath} (c : PComp)
    (h : p.head? = some PComp.rootDir) : (normStep p c).head? = some PComp.rootDir := by
  match p with
  | [] => simp at h
  | x :: rest =>
      simp only [List.head?_cons, Option.some.injEq] at h
      subst h
      match c with
      | PComp.rootDir => rfl
      | PComp.curDir => rfl
      | PComp.parentDir =>
          match rest with
          | [] => rfl
          | y :: rest' => rfl
      | PComp.normal s => rfl

theorem head_root_foldl :
    ∀ (l : List PComp) (acc : MPath), acc.head? = some PComp.rootDir →
      (List.foldl normStep acc l).head? = some PComp.rootDir
  | [], _, h => h
  | c :: l, acc, h => head_root_foldl l (normStep acc c) (head_root_normStep c h)

theorem normalizedShape_no_dots {p : MPath} (h : normalizedShape p) :
    ∀ c ∈ p, c ≠ PComp.curDir ∧ c ≠ PComp.parentDir := by
  match p with
  | [] => intro c hc; simp at hc
  | x :: rest =>
      obtain ⟨h1, h2⟩ := h
      intro c hc
      rcases List.mem_cons.1 hc with hc | hc
      · subst hc
        rcases h1 with h1 | h1
        · subst h1; exact ⟨by simp, by simp⟩
        · match c with
          | PComp.normal s => exact ⟨by simp, by simp⟩
      · have := h2 c hc
        match c with
        | PComp.normal s => exact ⟨by simp, by simp⟩

/-- C7: normalize_path is purely lexical (it is a pure function of the component
list) and idempotent; its result never contains a CurDir or ParentDir component;
and a leading RootDir is never popped away.  Models main.rs lines 440-465. -/
theorem c7_normalize_idempotent (p : MPath) :
    normalize_path (normalize_path p) = normalize_path p
    ∧ (∀ c ∈ normalize_path p, c ≠ PComp.curDir ∧ c ≠ PComp.parentDir)
    ∧ (p.head? = some PComp.rootDir → (normalize_path p).head? = some PComp.rootDir) := by
  have hshape : normalizedShape (normalize_path p) :=
    normalizedShape_foldl p [] trivial
  refine ⟨normalize_path_fixed hshape, normalizedShape_no_dots hshape, ?_⟩
  intro h
  match p with
  | [] => simp at h
  | c :: rest =>
      simp only [List.head?_cons, Option.some.injEq] at h
      subst h
      exact head_root_foldl rest [PComp.rootDir] rfl

/-- Concrete input used to exercise the C7 theorem. -/
def cpath0 : MPath :=
  [PComp.rootDir, PComp.normal "a", PComp.parentDir, PComp.normal "b"]

/-- Witness for C7 at the concrete path /a/../b, discharging the membership and
leading-root hypotheses. -/
theorem c7_normalize_idempotent_witness :
    normalize_path (normalize_path cpath0) = normalize_path cpath0
    ∧ (PComp.rootDir ≠ PComp.curDir ∧ PComp.rootDir ≠ PComp.parentDir)
    ∧ (normalize_path cpath0).head? = some PComp.rootDir :=
  ⟨(c7_normalize_idempotent cpath0).1,
   (c7_normalize_idempotent cpath0).2.1 PComp.rootDir (by decide),
   (c7_normalize_idempotent cpath0).2.2 rfl⟩

/-- encode_string on one character (main.rs lines 391-405): a backslash becomes
a double backslash and a newline becomes backslash-n; every other character
passes through.  The Rust code pads the single-character case with a NUL and
filters the pad back out, which leaves exactly one character. -/
def encodeChar (c : Char) : List Char :=
  if c = '\\' then ['\\', '\\']
  else if c = '\n' then ['\\', 'n']
  else [c]

/-- encode_string (main.rs lines 391-405) over the character list of a string. -/
def encode_string (s : List Char) : List Char := (s.map encodeChar).flatten

/-- State-passing core of decode_string (main.rs lines 407-437).  The Boolean
argument is the pv flag of the Rust code: whether the previous character was an
unconsumed backslash.  A pending backslash at end of input is silently dropped,
exactly as in the Rust code, where the map produces Ok(None) for it and
filter_map removes it.  The err! exit on a bad escape is modelled as none. -/
def decodeFold : Bool → List Char → Option (List Char)
  | _, [] => some []
  | false, c :: cs =>
      if c = '\\' then decodeFold true cs
      else (decodeFold false cs).map (fun r => c :: r)
  | true, c :: cs =>
      if c = '\\' then (decodeFold false cs).map (fun r => '\\' :: r)
      else if c = 'n' then (decodeFold false cs).map (fun r => '\n' :: r)
      else none

/-- decode_string (main.rs lines 407-437), starting with no pending backslash. -/
def decode_string (s : List Char) : Option (List Char) := decodeFold false s

theorem encode_string_cons (c : Char) (s : List Char) :
    encode_string (c :: s) = encodeChar c ++ encode_string s := by
  simp [encode_string]

theorem decode_encode : ∀ s : List Char, decodeFold false (encode_string s) = some s
  | [] => rfl
  | c :: s => by
      rw [encode_string_cons]
      by_cases hb : c = '\\'
      · subst hb
        simp [encodeChar, decodeFold, decode_encode s]
      · by_cases hn : c = '\n'
        · subst hn
          simp [encodeChar, decodeFold, decode_encode s]
        · simp [encodeChar, hb, hn, decodeFold, decode_encode s]

/-- C5: the escape codec round-trips, decode_string after encode_string is the
identity, and encode_string is injective.  Models main.rs lines 391-437. -/
theorem c5_codec_roundtrip (s t : List Char) :
    decode_string (encode_string s) = some s
    ∧ (encode_string s = encode_string t → s = t) := by
  refine ⟨decode_encode s, fun h => ?_⟩
  have hs := decode_encode s
  have ht := decode_encode t
  rw [h, ht] at hs
  exact (Option.some.injEq _ _ ▸ hs).symm

/-- Witness for C5 at a concrete string containing a newline and a backslash,
discharging the injectivity hypothesis with rfl. -/
theorem c5_codec_roundtrip_witness :
    decode_string (encode_string ['\n', '\\']) = some ['\n', '\\']
    ∧ (['\n', '\\'] : List Char) = ['\n', '\\'] :=
  ⟨(c5_codec_roundtrip ['\n', '\\'] ['\n', '\\']).1,
   (c5_codec_roundtrip ['\n', '\\'] ['\n', '\\']).2 rfl⟩

/-- Scan for a malformed escape: a backslash followed by a character other than
a backslash or the letter n.  A lone backslash at end of input is not
malformed for decode_string, which silently drops it. -/
def hasBadEscape : List Char → Bool
  | [] => false
  | [_] => false
  | c :: d :: ds =>
      if c = '\\' then (if d = '\\' ∨ d = 'n' then hasBadEscape ds else true)
      else hasBadEscape (d :: ds)

theorem decode_none_iff_bad : ∀ s : List Char,
    decode_string s = none ↔ hasBadEscape s = true
  | [] => by simp [decode_string, decodeFold, hasBadEscape]
  | [c] => by
      by_cases hb : c = '\\'
      · subst hb; simp [decode_string, decodeFold, hasBadEscape]
      · simp [decode_string, decodeFold, hasBadEscape, hb]
  | c :: d :: ds => by
      by_cases hb : c = '\\'
      · subst hb
        by_cases hd : d = '\\' ∨ d = 'n'
        · have ih := decode_none_iff_bad ds
          rw [decode_string] at ih
          rcases hd with hd | hd <;> subst hd <;>
            simp [decode_string, decodeFold, hasBadEscape, ih, Option.map_eq_none']
        · have h1 : ¬d = '\\' := fun h => hd (Or.inl h)
          have h2 : ¬d = 'n' := fun h => hd (Or.inr h)
          simp [decode_string, decodeFold, hasBadEscape, h1, h2]
      · have ih := decode_none_iff_bad (d :: ds)
        rw [decode_string] at ih
        have e2 : hasBadEscape (c :: d :: ds) = hasBadEscape (d :: ds) := by
          simp [hasBadEscape, hb]
        have e1 : decode_string (c :: d :: ds) = none ↔ decodeFold false (d :: ds) = none := by
          rw [decode_string]
          show (if c = '\\' then decodeFold true (d :: ds)
            else (decodeFold false (d :: ds)).map (fun r => c :: r)) = none ↔ _
          rw [if_neg hb, Option.map_eq_none']
        rw [e1, e2, ih]

/-- C6 counterexample: contrary to the claim, the two-character sequence
backslash-t is a decode error (decode_string accepts only backslash and n after
a backslash), and a lone trailing backslash is not rejected but silently
dropped.  Models main.rs lines 407-437. -/
theorem c6_decode_counterexample :
    decode_string ['\\', 't'] = none ∧ decode_string ['\\'] = some [] :=
  ⟨rfl, rfl⟩

/-- C6 amended: decoding fails exactly on a backslash followed by any character
other than backslash or n; in particular backslash-t is rejected, and a lone
backslash at end of string is accepted and silently dropped. -/
theorem c6_decode_error_iff (s : List Char) :
    decode_string s = none ↔ hasBadEscape s = true :=
  decode_none_iff_bad s

/-- Witness for C6 at the concrete input backslash-q, discharging the
right-to-left direction with a computation. -/
theorem c6_decode_error_iff_witness : decode_string ['\\', 'q'] = none :=
  (c6_decode_error_iff ['\\', 'q']).mpr (by decide)

/-- One accepted rename pair as built by work (main.rs lines 144-169): the
canonical source, the scratch path inside the temporary directory, and the
normalized destination. -/
structure RenamePair where
  src : MPath
  scratch : MPath
  dst : MPath
deriving DecidableEq, Repr

/-- Number of components of the source, the sort key of work
(components().count() in main.rs line 171). -/
def srcDepth (p : RenamePair) : Nat := p.src.length

/-- Stable insertion of one pair into a list sorted by descending source
depth: keep skipping while the existing element is strictly deeper, so equal
depths keep their original relative order, exactly like the stable
sorted_by_key with a Reverse key in main.rs line 171. -/
def insertPair (x : RenamePair) : List RenamePair → List RenamePair
  | [] => [x]
  | y :: ys => if srcDepth x < srcDepth y then y :: insertPair x ys else x :: y :: ys

/-- The sort of work (main.rs line 171): stable, by descending source depth. -/
def sortPairs : List RenamePair → List RenamePair
  | [] => []
  | x :: xs => insertPair x (sortPairs xs)

/-- Strict path ancestry: b extends a by at least one further component. -/
def strictAncestor (a b : MPath) : Prop := ∃ r : MPath, r ≠ [] ∧ b = a ++ r

theorem strictAncestor_length {a b : MPath} (h : strictAncestor a b) :
    a.length < b.length := by
  obtain ⟨r, hr, rfl⟩ := h
  have : 0 < r.length := List.length_pos.2 hr
  simp [List.length_append]
  omega

theorem mem_insertPair {x z : RenamePair} :
    ∀ {l : List RenamePair}, z ∈ insertPair x l → z = x ∨ z ∈ l
  | [], h => Or.inl (by simpa [insertPair] using h)
  | y :: ys, h => by
      rw [insertPair] at h
      by_cases hc : srcDepth x < srcDepth y
      · rw [if_pos hc] at h
        rcases List.mem_cons.1 h with h | h
        · exact Or.inr (by simp [h])
        · rcases mem_insertPair h with h | h
          · exact Or.inl h
          · exact Or.inr (by simp [h])
      · rw [if_neg hc] at h
        rcases List.mem_cons.1 h with h | h
        · exact Or.inl h
        · exact Or.inr h

theorem pairwise_insertPair {x : RenamePair} :
    ∀ {l : List RenamePair},
      l.Pairwise (fun a b => srcDepth b ≤ srcDepth a) →
      (insertPair x l).Pairwise (fun a b => srcDepth b ≤ srcDepth a)
  | [], _ => by simp [insertPair]
  | y :: ys, h => by
      obtain ⟨hy, hys⟩ := List.pairwise_cons.1 h
      rw [insertPair]
      by_cases hc : srcDepth x < srcDepth y
      · rw [if_pos hc]
        refine List.pairwise_cons.2 ⟨fun z hz => ?_, pairwise_insertPair hys⟩
        rcases mem_insertPair hz with hz | hz
        · subst hz; exact Nat.le_of_lt hc
        · exact hy z hz
      · rw [if_neg hc]
        have hyx : srcDepth y ≤ srcDepth x := Nat.le_of_not_lt hc
        refine List.pairwise_cons.2 ⟨fun z hz => ?_, h⟩
        rcases List.mem_cons.1 hz with hz | hz
        · subst hz; exact hyx
        · exact Nat.le_trans (hy z hz) hyx

theorem sortPairs_sorted :
    ∀ ps : List RenamePair,
      (sortPairs ps).Pairwise (fun a b => srcDepth b ≤ srcDepth a)
  | [] => by simp [sortPairs]
  | x :: xs => pairwise_insertPair (sortPairs_sorted xs)

theorem insertPair_perm (x : RenamePair) :
    ∀ l : List RenamePair, List.Perm (insertPair x l) (x :: l)
  | [] => List.Perm.refl _
  | y :: ys => by
      rw [insertPair]
      by_cases hc : srcDepth x < srcDepth y
      · rw [if_pos hc]
        exact List.Perm.trans (List.Perm.cons y (insertPair_perm x ys))
          (List.Perm.swap x y ys)
      · rw [if_neg hc]

theorem sortPairs_perm : ∀ ps : List RenamePair, List.Perm (sortPairs ps) ps
  | [] => List.Perm.refl _
  | x :: xs =>
      List.Perm.trans (insertPair_perm x (sortPairs xs))
        (List.Perm.cons x (sortPairs_perm xs))

theorem sorted_get_lt {ps : List RenamePair} {i j : Fin (sortPairs ps).length}
    (h : srcDepth ((sortPairs ps).get i) < srcDepth ((sortPairs ps).get j)) :
    (j : ℕ) < (i : ℕ) := by
  by_contra hij
  have hle : (i : ℕ) ≤ (j : ℕ) := Nat.le_of_not_lt hij
  rcases Nat.lt_or_ge (i : ℕ) (j : ℕ) with hlt | hge
  · have := List.pairwise_iff_get.1 (sortPairs_sorted ps) i j hlt
    omega
  · have : (i : ℕ) = (j : ℕ) := Nat.le_antisymm hle hge
    have : i = j := Fin.ext this
    subst this
    omega

theorem rev_sorted_get_lt {ps : List RenamePair}
    {i j : Fin ((sortPairs ps).reverse.length)}
    (h : srcDepth ((sortPairs ps).reverse.get i)
      < srcDepth ((sortPairs ps).reverse.get j)) :
    (i : ℕ) < (j : ℕ) := by
  have hrev : ((sortPairs ps).reverse).Pairwise (fun a b => srcDepth a ≤ srcDepth b) :=
    List.pairwise_reverse.2 (sortPairs_sorted ps)
  by_contra hij
  have hle : (j : ℕ) ≤ (i : ℕ) := Nat.le_of_not_lt hij
  rcases Nat.lt_or_ge (j : ℕ) (i : ℕ) with hlt | hge
  · have := List.pairwise_iff_get.1 hrev j i hlt
    omega
  · have : j = i := Fin.ext (Nat.le_antisymm hle hge)
    subst this
    omega

/-- Concrete pair with a three-component source and destination /x. -/
def cpair1 : RenamePair :=
  ⟨[PComp.rootDir, PComp.normal "s", PComp.normal "t"],
   [PComp.normal "tmp", PComp.normal "1"],
   [PComp.rootDir, PComp.normal "x"]⟩

/-- Concrete pair with a two-component source and destination /x/y. -/
def cpair2 : RenamePair :=
  ⟨[PComp.rootDir, PComp.normal "u"],
   [PComp.normal "tmp", PComp.normal "2"],
   [PComp.rootDir, PComp.normal "x", PComp.normal "y"]⟩

/-- C3 counterexample: the sort looks only at source depth, so destination
ancestry does not order Phase 2.  Here cpair1.dst = /x is a strict ancestor of
cpair2.dst = /x/y, yet the Phase 2 order (the reverse of the sorted list,
main.rs line 215) processes cpair2 first and cpair1 second. -/
theorem c3_phase2_counterexample :
    strictAncestor cpair1.dst cpair2.dst
    ∧ (sortPairs [cpair1, cpair2]).reverse = [cpair2, cpair1] :=
  ⟨⟨[PComp.normal "y"], by simp, rfl⟩, rfl⟩

/-- C3 amended: the sorted list is a permutation of the input; for sources,
a strict ancestor is processed in Phase 1 (forward iteration, main.rs line 212)
after its descendant; for destinations, the Phase 2 order (reverse iteration,
main.rs line 215) puts a strict dst ancestor first only when its source also
has strictly fewer components, since source depth is the only sort key. -/
theorem c3_amended_order (ps : List RenamePair) :
    List.Perm (sortPairs ps) ps
    ∧ (∀ i j : Fin (sortPairs ps).length,
        strictAncestor ((sortPairs ps).get i).src ((sortPairs ps).get j).src →
        (j : ℕ) < (i : ℕ))
    ∧ (∀ i j : Fin ((sortPairs ps).reverse.length),
        strictAncestor ((sortPairs ps).reverse.get i).dst
          ((sortPairs ps).reverse.get j).dst →
        srcDepth ((sortPairs ps).reverse.get i)
          < srcDepth ((sortPairs ps).reverse.get j) →
        (i : ℕ) < (j : ℕ)) := by
  refine ⟨sortPairs_perm ps, fun i j hanc => ?_, fun i j _ hdep => ?_⟩
  · exact sorted_get_lt (strictAncestor_length hanc)
  · exact rev_sorted_get_lt hdep

/-- Concrete pair: source /d/f, destination /d/g. -/
def cpair3 : RenamePair :=
  ⟨[PComp.rootDir, PComp.normal "d", PComp.normal "f"],
   [PComp.normal "tmp", PComp.normal "3"],
   [PComp.rootDir, PComp.normal "d", PComp.normal "g"]⟩

/-- Concrete pair: source /d, destination /e. -/
def cpair4 : RenamePair :=
  ⟨[PComp.rootDir, PComp.normal "d"],
   [PComp.normal "tmp", PComp.normal "4"],
   [PComp.rootDir, PComp.normal "e"]⟩

/-- Witness for C3 on the two concrete pairs /d/f and /d: the source /d is a
strict ancestor of /d/f, and the descendant indeed comes strictly earlier in
the sorted Phase 1 order. -/
theorem c3_amended_order_witness :
    strictAncestor cpair4.src cpair3.src ∧ (0 : ℕ) < 1 := by
  have hanc : strictAncestor cpair4.src cpair3.src :=
    ⟨[PComp.normal "f"], by simp, rfl⟩
  refine ⟨hanc, ?_⟩
  have h := (c3_amended_order [cpair3, cpair4]).2.1 ⟨1, by decide⟩ ⟨0, by decide⟩
  exact h hanc

/-- Command-line flags of the program (main.rs lines 26-48). -/
structure Flags where
  backup : Bool
  dryrun : Bool
  encode : Bool
  individual : Bool
  mcp : Bool
  nul : Bool
  verbose : Bool
deriving DecidableEq, Repr

/-- The Default impl for Flags (main.rs lines 36-48): backup on, all else off. -/
def defaultFlags : Flags :=
  { backup := true, dryrun := false, encode := false, individual := false,
    mcp := false, nul := false, verbose := false }

/-- The flags after Flags::parse detects the mcp program name (main.rs lines
61-65): copy mode on and backup forced off, before any option is read. -/
def mcpStartFlags : Flags := { defaultFlags with mcp := true, backup := false }

/-- The verb printed by move_path and by the dry-run loop (main.rs lines 206
and 477). -/
inductive Verb where
  | renamed
  | copied
deriving DecidableEq, Repr

def verbOf (flags : Flags) : Verb := if flags.mcp then Verb.copied else Verb.renamed

/-- One filesystem mutation issued by the program.  The rename constructor is
part of the vocabulary so that its absence from every trace can be stated; the
Rust code never calls fs::rename. -/
inductive FsAct where
  | createTempDir (p : MPath)
  | createDirAll (p : MPath)
  | createDir (p : MPath)
  | copyFile (src dst : MPath)
  | removeFile (p : MPath)
  | removeDir (p : MPath)
  | removeDirAll (p : MPath)
  | rename (src dst : MPath)
deriving DecidableEq, Repr

/-- One line written to standard error by work, backup_srcs or move_path. -/
inductive OutLine where
  | createdDir (p : MPath)
  | actionLine (v : Verb) (src dst : MPath)
  | removingDir (p : MPath)
deriving DecidableEq, Repr

/-- The paths written, created or removed by an action; the source of a file
copy is only read, so it is not listed. -/
def mutTargets : FsAct → List MPath
  | FsAct.createTempDir p => [p]
  | FsAct.createDirAll p => [p]
  | FsAct.createDir p => [p]
  | FsAct.copyFile _ d => [d]
  | FsAct.removeFile p => [p]
  | FsAct.removeDir p => [p]
  | FsAct.removeDirAll p => [p]
  | FsAct.rename a b => [a, b]

/-- Action trace of copy_and_remove_file_or_dir (main.rs lines 484-502) on its
success path; the stat of the origin is abstracted by the isDir oracle.  A
directory is moved by creating the target directory and, unless in copy mode,
removing the origin with remove_dir; a file is moved by copying the bytes and,
unless in copy mode, unlinking the origin.  No rename is ever issued. -/
def copy_and_remove_acts (flags : Flags) (isDir : MPath → Bool)
    (f t : MPath) : List FsAct :=
  if isDir f then
    FsAct.createDir t :: (if flags.mcp then [] else [FsAct.removeDir f])
  else
    FsAct.copyFile f t :: (if flags.mcp then [] else [FsAct.removeFile f])

/-- move_path (main.rs lines 467-482): outside dry-run it performs the copy
and remove, and in verbose mode it prints the action line afterwards; the
line is printed for every call, in both phases. -/
def move_path (flags : Flags) (isDir : MPath → Bool) (f t : MPath) :
    List FsAct × List OutLine :=
  ((if flags.dryrun then [] else copy_and_remove_acts flags isDir f t),
   (if flags.verbose then [OutLine.actionLine (verbOf flags) f t] else []))

/-- Removal of the leading root separator, as backup_srcs does before joining
a source path under the cache directory (main.rs lines 237, 244, 250). -/
def relOf (p : MPath) : MPath :=
  match p with
  | PComp.rootDir :: rest => rest
  | p => p

/-- Path::parent: none for the empty path and for the bare root, otherwise the
path without its last component. -/
def parentOf (p : MPath) : Option MPath :=
  match p with
  | [] => none
  | [PComp.rootDir] => none
  | p => some p.dropLast

/-- Backup of a single source (loop body of backup_srcs, main.rs lines
234-261), run with the backup cache directory as current directory, so the
relative paths it creates land under the cache directory.  A directory source
only gets an empty directory skeleton; a file source gets its parent skeleton
and a byte copy. -/
def backupOne (flags : Flags) (cache : MPath) (isDir : MPath → Bool)
    (x : MPath) : List FsAct × List OutLine :=
  if isDir x then
    ([FsAct.createDirAll (cache ++ relOf x)],
     if flags.verbose then [OutLine.createdDir (cache ++ relOf x)] else [])
  else
    ((match parentOf x with
      | some pa => [FsAct.createDirAll (cache ++ relOf pa)]
      | none => [])
      ++ [FsAct.copyFile x (cache ++ relOf x)],
     if flags.verbose then
       (match parentOf x with
        | some pa => [OutLine.createdDir (cache ++ relOf pa)]
        | none => [])
        ++ [OutLine.actionLine Verb.copied x (cache ++ relOf x)]
     else [])

/-- backup_srcs (main.rs lines 230-264) over the sorted sources. -/
def backup_srcs (flags : Flags) (cache : MPath) (isDir : MPath → Bool)
    (srcs : List MPath) : List FsAct × List OutLine :=
  ((srcs.map (fun x => (backupOne flags cache isDir x).1)).flatten,
   (srcs.map (fun x => (backupOne flags cache isDir x).2)).flatten)

/-- Execution portion of work (main.rs lines 139-227), from the creation of
the scratch tempdir to the cleanup, as the pair of the filesystem actions it
performs and the standard-error lines it prints, both in program order.  The
final removeDirAll of the tempdir models the Drop of the tempfile handle at
the end of work.  Sorting happens inside, as in main.rs line 171. -/
def workExec (flags : Flags) (isDir : MPath → Bool) (tmp cache : MPath)
    (ps0 : List RenamePair) : List FsAct × List OutLine :=
  let ps := sortPairs ps0
  let bk : List FsAct × List OutLine :=
    if flags.backup then
      (FsAct.createDirAll cache
         :: (backup_srcs flags cache isDir (ps.map (fun p => p.src))).1,
       (if flags.verbose then [OutLine.createdDir cache] else [])
         ++ (backup_srcs flags cache isDir (ps.map (fun p => p.src))).2)
    else ([], [])
  let run : List FsAct × List OutLine :=
    if flags.dryrun then
      ([], ps.map (fun p => OutLine.actionLine (verbOf flags) p.src p.dst))
    else
      ((ps.map (fun p => (move_path flags isDir p.src p.scratch).1)).flatten
         ++ (ps.reverse.map (fun p => (move_path flags isDir p.scratch p.dst).1)).flatten,
       (ps.map (fun p => (move_path flags isDir p.src p.scratch).2)).flatten
         ++ (ps.reverse.map (fun p => (move_path flags isDir p.scratch p.dst).2)).flatten)
  let cleanup : List FsAct × List OutLine :=
    if flags.backup then
      ([FsAct.removeDirAll cache],
       if flags.verbose then [OutLine.removingDir cache] else [])
    else ([], [])
  (FsAct.createTempDir tmp
     :: (bk.1 ++ (run.1 ++ (cleanup.1 ++ [FsAct.removeDirAll tmp]))),
   (if flags.verbose then [OutLine.createdDir tmp] else [])
     ++ (bk.2 ++ (run.2 ++ cleanup.2)))

theorem flatten_map_single {α β : Type} (h : α → List β) (f : α → β)
    (hone : ∀ a, h a = [f a]) : ∀ l : List α, (l.map h).flatten = l.map f := by
  intro l
  induction l with
  | nil => rfl
  | cons x xs ih => simp [hone, ih]

theorem flatten_reverse_map_single {α β : Type} (h : α → List β) (f : α → β)
    (hone : ∀ a, h a = [f a]) (l : List α) :
    ((l.map h).reverse).flatten = (l.map f).reverse := by
  rw [← List.map_reverse, flatten_map_single _ _ hone, List.map_reverse]

/-- C8 counterexample: a move of a file (origin and target both given to the
executor with no filesystem distinction at all) is performed as a byte copy
followed by an unlink, never as a rename, so the claimed same-filesystem
rename does not exist in the code.  Models main.rs lines 484-502. -/
theorem c8_rename_counterexample :
    copy_and_remove_acts defaultFlags (fun _ => false)
        [PComp.rootDir, PComp.normal "f"] [PComp.rootDir, PComp.normal "g"]
      = [FsAct.copyFile [PComp.rootDir, PComp.normal "f"]
           [PComp.rootDir, PComp.normal "g"],
         FsAct.removeFile [PComp.rootDir, PComp.normal "f"]] := rfl

/-- C8 amended: the executor never issues a rename for any move; every file
move is unconditionally copy-then-unlink and every directory move is
create-then-remove-dir, regardless of filesystem.  Models main.rs lines
484-502. -/
theorem c8_amended_never_rename (flags : Flags) (isDir : MPath → Bool)
    (f t : MPath) (bk dr enc ind nul vb : Bool) (f2 t2 : MPath) :
    ((copy_and_remove_acts flags isDir f t).all
        (fun a => match a with
          | FsAct.rename _ _ => false
          | _ => true) = true)
    ∧ copy_and_remove_acts (Flags.mk bk dr enc ind false nul vb)
        (fun _ => false) f2 t2
        = [FsAct.copyFile f2 t2, FsAct.removeFile f2] := by
  constructor
  · cases hd : isDir f <;> cases hm : flags.mcp <;>
      simp [copy_and_remove_acts, hd, hm]
  · rfl

/-- Concrete rename pair /a to /b through scratch tmp/h. -/
def cpair0 : RenamePair :=
  ⟨[PComp.rootDir, PComp.normal "a"],
   [PComp.normal "tmp", PComp.normal "h"],
   [PComp.rootDir, PComp.normal "b"]⟩

/-- Concrete scratch directory path. -/
def ctmp : MPath := [PComp.normal "tmp"]

/-- Concrete backup cache directory path. -/
def ccache : MPath := [PComp.rootDir, PComp.normal "cache"]

/-- Stat oracle that reports every path as a file. -/
def cIsDir : MPath → Bool := fun _ => false

/-- C2 counterexample: in copy mode the executor does not copy the source
directly to the destination; Phase 1 still runs and copies the source to its
scratch path, which is not the destination.  Models main.rs lines 211-218. -/
theorem c2_copy_counterexample :
    FsAct.copyFile cpair0.src cpair0.scratch
        ∈ (workExec mcpStartFlags cIsDir ctmp ccache [cpair0]).1
    ∧ (cpair0.scratch == cpair0.dst) = false := by
  constructor
  · decide
  · decide

/-- C2 amended: in copy mode backup defaults to off, but Phase 1 is not
skipped: the executor copies each source to its scratch path (forward over
the sorted set) and then each scratch path to its destination (reverse), and
no removeFile or removeDir is ever issued, so sources are preserved.  Models
main.rs lines 61-65, 211-218 and 484-502. -/
theorem c2_amended_copy_mode (isDir : MPath → Bool) (tmp cache : MPath)
    (ps : List RenamePair) :
    mcpStartFlags.backup = false
    ∧ (workExec mcpStartFlags isDir tmp cache ps).1
        = FsAct.createTempDir tmp
            :: ((sortPairs ps).map (fun p =>
                  if isDir p.src then FsAct.createDir p.scratch
                  else FsAct.copyFile p.src p.scratch)
              ++ ((sortPairs ps).reverse.map (fun p =>
                    if isDir p.scratch then FsAct.createDir p.dst
                    else FsAct.copyFile p.scratch p.dst)
                ++ [FsAct.removeDirAll tmp]))
    ∧ (workExec mcpStartFlags isDir tmp cache ps).1.all
        (fun a => match a with
          | FsAct.removeFile _ => false
          | FsAct.removeDir _ => false
          | _ => true) = true := by
  have hone1 : ∀ p : RenamePair,
      (move_path (Flags.mk false false false false true false false)
          isDir p.src p.scratch).1
        = [if isDir p.src then FsAct.createDir p.scratch
           else FsAct.copyFile p.src p.scratch] := by
    intro p
    cases hd : isDir p.src <;>
      simp [move_path, copy_and_remove_acts, hd]
  have hone2 : ∀ p : RenamePair,
      (move_path (Flags.mk false false false false true false false)
          isDir p.scratch p.dst).1
        = [if isDir p.scratch then FsAct.createDir p.dst
           else FsAct.copyFile p.scratch p.dst] := by
    intro p
    cases hd : isDir p.scratch <;>
      simp [move_path, copy_and_remove_acts, hd]
  have he : (workExec mcpStartFlags isDir tmp cache ps).1
      = FsAct.createTempDir tmp
          :: ((sortPairs ps).map (fun p =>
                if isDir p.src then FsAct.createDir p.scratch
                else FsAct.copyFile p.src p.scratch)
            ++ ((sortPairs ps).reverse.map (fun p =>
                  if isDir p.scratch then FsAct.createDir p.dst
                  else FsAct.copyFile p.scratch p.dst)
              ++ [FsAct.removeDirAll tmp])) := by
    simp [workExec, mcpStartFlags, defaultFlags,
      flatten_map_single _ _ hone1, flatten_reverse_map_single _ _ hone2]
  refine ⟨rfl, he, ?_⟩
  rw [he]
  refine List.all_eq_true.2 ?_
  intro a ha
  rcases List.mem_cons.1 ha with rfl | ha
  · rfl
  rcases List.mem_append.1 ha with ha | ha
  · rcases List.mem_map.1 ha with ⟨p, _, rfl⟩
    cases hd : isDir p.src <;> simp [hd]
  rcases List.mem_append.1 ha with ha | ha
  · rcases List.mem_map.1 ha with ⟨p, _, rfl⟩
    cases hd : isDir p.scratch <;> simp [hd]
  · have := List.mem_singleton.1 ha
    subst this
    rfl

/-- Flags for a verbose move-mode run without backup. -/
def vflags : Flags :=
  { backup := false, dryrun := false, encode := false, individual := false,
    mcp := false, nul := false, verbose := true }

/-- C9 counterexample: in verbose mode a trace line is printed after the
Phase 1 move of the source to its scratch path as well, so Phase 1 is not
silent.  Models main.rs lines 212-214 and 474-481. -/
theorem c9_verbose_counterexample :
    OutLine.actionLine Verb.renamed cpair0.src cpair0.scratch
        ∈ (workExec vflags cIsDir ctmp ccache [cpair0]).2
    ∧ (cpair0.scratch == cpair0.dst) = false := by
  constructor
  · decide
  · decide

/-- C9 amended: in verbose mode (shown here without backup) one line is
emitted for the scratch directory creation and then one line after every
move of both phases: first each source to its scratch path in sorted order,
then each scratch path to its destination in reverse order.  Models main.rs
lines 139-142, 211-218 and 467-482. -/
theorem c9_amended_verbose_lines (isDir : MPath → Bool) (tmp cache : MPath)
    (ps : List RenamePair) (enc ind mcp nul : Bool) :
    (workExec (Flags.mk false false enc ind mcp nul true) isDir tmp cache ps).2
      = OutLine.createdDir tmp
          :: ((sortPairs ps).map (fun p =>
                OutLine.actionLine (if mcp then Verb.copied else Verb.renamed)
                  p.src p.scratch)
            ++ (sortPairs ps).reverse.map (fun p =>
                OutLine.actionLine (if mcp then Verb.copied else Verb.renamed)
                  p.scratch p.dst)) := by
  have hone1 : ∀ p : RenamePair,
      (move_path (Flags.mk false false enc ind mcp nul true) isDir p.src p.scratch).2
        = [OutLine.actionLine (if mcp then Verb.copied else Verb.renamed)
             p.src p.scratch] := by
    intro p; simp [move_path, verbOf]
  have hone2 : ∀ p : RenamePair,
      (move_path (Flags.mk false false enc ind mcp nul true) isDir p.scratch p.dst).2
        = [OutLine.actionLine (if mcp then Verb.copied else Verb.renamed)
             p.scratch p.dst] := by
    intro p; simp [move_path, verbOf]
  simp [workExec, flatten_map_single _ _ hone1, flatten_reverse_map_single _ _ hone2]

theorem isPrefixOf_append_self : ∀ (c r : MPath), c.isPrefixOf (c ++ r) = true
  | [], _ => by simp [List.isPrefixOf]
  | x :: c, r => by simp [List.isPrefixOf, isPrefixOf_append_self c r]

theorem isPrefixOf_self (c : MPath) : c.isPrefixOf c = true := by
  have h := isPrefixOf_append_self c []
  rwa [List.append_nil] at h

/-- Whether an action mutates only the scratch directory itself or paths
inside the backup cache directory. -/
def inScratchOrCache (tmp cache : MPath) (a : FsAct) : Bool :=
  (mutTargets a).all (fun q => q == tmp || cache.isPrefixOf q)

theorem backupOne_targets (flags : Flags) (cache : MPath) (isDir : MPath → Bool)
    (x : MPath) (tmp : MPath) :
    ((backupOne flags cache isDir x).1.all (inScratchOrCache tmp cache)) = true := by
  cases hd : isDir x
  · cases hp : parentOf x <;>
      simp [backupOne, hd, hp, inScratchOrCache, mutTargets, isPrefixOf_append_self]
  · simp [backupOne, hd, inScratchOrCache, mutTargets, isPrefixOf_append_self]

theorem backup_srcs_targets (flags : Flags) (cache : MPath) (isDir : MPath → Bool)
    (tmp : MPath) : ∀ xs : List MPath,
    ((backup_srcs flags cache isDir xs).1.all (inScratchOrCache tmp cache)) = true
  | [] => rfl
  | x :: xs => by
      have h1 := backupOne_targets flags cache isDir x tmp
      have h2 := backup_srcs_targets flags cache isDir tmp xs
      simp only [backup_srcs, List.map_cons, List.flatten_cons, List.all_append] at h2 ⊢
      rw [h1, h2]
      rfl

theorem flatten_map_nil {α β : Type} (h : α → List β) (hnil : ∀ a, h a = []) :
    ∀ l : List α, (l.map h).flatten = ([] : List β) := by
  intro l
  induction l with
  | nil => rfl
  | cons x xs ih => simp [hnil, ih]

theorem backup_srcs_silent {flags : Flags} (hv : flags.verbose = false)
    (cache : MPath) (isDir : MPath → Bool) (xs : List MPath) :
    (backup_srcs flags cache isDir xs).2 = [] :=
  flatten_map_nil _ (fun x => by cases hd : isDir x <;> simp [backupOne, hd, hv]) xs

/-- Flags of a dry-run of the move variant with its default backup state. -/
def dryFlags : Flags :=
  { backup := true, dryrun := true, encode := false, individual := false,
    mcp := false, nul := false, verbose := false }

/-- C1 counterexample: a dry-run with backup enabled (the move-variant
default) still mutates the filesystem; here it copies the source file into
the backup cache directory before printing the preview lines, and it also
creates the scratch directory.  Models main.rs lines 139, 174-200 and
202-210. -/
theorem c1_dryrun_counterexample :
    FsAct.copyFile cpair0.src (ccache ++ relOf cpair0.src)
        ∈ (workExec dryFlags cIsDir ctmp ccache [cpair0]).1 := by decide

/-- C1 amended: in dry-run mode no Phase 1 or Phase 2 action is performed and
every action that does run mutates only the scratch directory or paths under
the backup cache directory (scratch creation and removal, and the backup
snapshot creation and removal when backup is on); with verbose off the output
is exactly one line per pair, with verb renamed in move mode and copied in
copy mode, naming source and destination.  Models main.rs lines 139-227. -/
theorem c1_amended_dryrun (bk enc ind mcp nul vb : Bool) (isDir : MPath → Bool)
    (tmp cache : MPath) (ps : List RenamePair) :
    ((workExec (Flags.mk bk true enc ind mcp nul vb) isDir tmp cache ps).1.all
        (inScratchOrCache tmp cache) = true)
    ∧ (workExec (Flags.mk bk true enc ind mcp nul false) isDir tmp cache ps).2
        = (sortPairs ps).map (fun p =>
            OutLine.actionLine (if mcp then Verb.copied else Verb.renamed)
              p.src p.dst) := by
  have htmp : inScratchOrCache tmp cache (FsAct.createTempDir tmp) = true := by
    simp [inScratchOrCache, mutTargets]
  have hrm : inScratchOrCache tmp cache (FsAct.removeDirAll tmp) = true := by
    simp [inScratchOrCache, mutTargets]
  have hcc : inScratchOrCache tmp cache (FsAct.createDirAll cache) = true := by
    simp [inScratchOrCache, mutTargets, isPrefixOf_self]
  have hrc : inScratchOrCache tmp cache (FsAct.removeDirAll cache) = true := by
    simp [inScratchOrCache, mutTargets, isPrefixOf_self]
  constructor
  · have hbk := backup_srcs_targets (Flags.mk bk true enc ind mcp nul vb) cache
      isDir tmp ((sortPairs ps).map (fun p => p.src))
    cases bk <;>
      simp [workExec, List.all_append, htmp, hrm, hcc, hrc, hbk]
  · have hsil := @backup_srcs_silent (Flags.mk bk true enc ind mcp nul false) rfl
      cache isDir ((sortPairs ps).map (fun p => p.src))
    cases bk <;> simp [workExec, verbOf, hsil]

/-- Duplicate error raised by the validation loop of work (main.rs lines
152-161).  The err! invocation there prints a single message and exits the
process, so the error can only ever carry one duplicate path. -/
inductive DupError where
  | dupSrc (p : MPath)
  | dupDst (p : MPath)
deriving DecidableEq, Repr

/-- Validation loop of work (main.rs lines 144-169): the paths arrive already
canonicalized and normalized, the two seen-sets start empty, a pair checks
its source before its destination, and the first duplicate found aborts the
whole run through err!, modelled as an error result.  Scratch assignment is
abstracted by the scratchOf function; the Rust code hashes the canonical
source path for it. -/
def buildPairs (scratchOf : MPath → MPath) :
    List (MPath × MPath) → List MPath → List MPath →
    Except DupError (List RenamePair)
  | [], _, _ => Except.ok []
  | (s, d) :: rest, seenS, seenD =>
    if s ∈ seenS then Except.error (DupError.dupSrc s)
    else if d ∈ seenD then Except.error (DupError.dupDst d)
    else
      match buildPairs scratchOf rest (s :: seenS) (d :: seenD) with
      | Except.error e => Except.error e
      | Except.ok ps => Except.ok (⟨s, scratchOf s, d⟩ :: ps)

/-- Concrete scratch assignment for the validation examples. -/
def cScratch : MPath → MPath := fun p => PComp.normal "tmp" :: relOf p

/-- Concrete path /a. -/
def cpa : MPath := [PComp.rootDir, PComp.normal "a"]

/-- Concrete path /b. -/
def cpb : MPath := [PComp.rootDir, PComp.normal "b"]

/-- Concrete path /x. -/
def cpx : MPath := [PComp.rootDir, PComp.normal "x"]

/-- Concrete path /y. -/
def cpy : MPath := [PComp.rootDir, PComp.normal "y"]

/-- C4 counterexample: this batch contains two distinct duplicates, the
repeated source /a and the repeated destination /x, yet validation reports
only the first one found and never reaches the rest of the batch, instead of
collecting every duplicate into one error.  Models main.rs lines 144-169;
the batch-collecting ConsError::from_iter of lib.rs is never called by the
program. -/
theorem c4_first_duplicate_counterexample :
    buildPairs cScratch [(cpa, cpx), (cpa, cpy), (cpb, cpx)] [] []
      = Except.error (DupError.dupSrc cpa) := rfl

theorem buildPairs_append (scratchOf : MPath → MPath) :
    ∀ (pre : List (MPath × MPath)) (seenS seenD : List MPath)
      (rest : List (MPath × MPath)),
      (pre.map Prod.fst).Nodup → (∀ x ∈ pre.map Prod.fst, x ∉ seenS) →
      (pre.map Prod.snd).Nodup → (∀ x ∈ pre.map Prod.snd, x ∉ seenD) →
      buildPairs scratchOf (pre ++ rest) seenS seenD
        = match buildPairs scratchOf rest
            ((pre.map Prod.fst).reverse ++ seenS)
            ((pre.map Prod.snd).reverse ++ seenD) with
          | Except.error e => Except.error e
          | Except.ok ps =>
              Except.ok (pre.map (fun p => (⟨p.1, scratchOf p.1, p.2⟩ : RenamePair)) ++ ps)
  | [], seenS, seenD, rest, _, _, _, _ => by
      cases h : buildPairs scratchOf rest seenS seenD <;> simp [h]
  | (s, d) :: pre, seenS, seenD, rest, hs, hsS, hd, hdD => by
      have hs1 : s ∉ seenS := hsS s (by simp)
      have hd1 : d ∉ seenD := hdD d (by simp)
      have hshead : s ∉ pre.map Prod.fst := (List.nodup_cons.1 (by simpa using hs)).1
      have hdhead : d ∉ pre.map Prod.snd := (List.nodup_cons.1 (by simpa using hd)).1
      have ih := buildPairs_append scratchOf pre (s :: seenS) (d :: seenD) rest
        (List.nodup_cons.1 (by simpa using hs)).2
        (by
          intro x hx hmem
          rcases List.mem_cons.1 hmem with rfl | hmem
          · exact hshead hx
          · exact hsS x (by simp [hx]) hmem)
        (List.nodup_cons.1 (by simpa using hd)).2
        (by
          intro x hx hmem
          rcases List.mem_cons.1 hmem with rfl | hmem
          · exact hdhead hx
          · exact hdD x (by simp [hx]) hmem)
      have hA : (((s, d) :: pre).map Prod.fst).reverse ++ seenS
          = (pre.map Prod.fst).reverse ++ (s :: seenS) := by
        simp [List.append_assoc]
      have hB : (((s, d) :: pre).map Prod.snd).reverse ++ seenD
          = (pre.map Prod.snd).reverse ++ (d :: seenD) := by
        simp [List.append_assoc]
      rw [List.cons_append, buildPairs, if_neg hs1, if_neg hd1, ih, hA, hB]
      cases h : buildPairs scratchOf rest
          ((pre.map Prod.fst).reverse ++ (s :: seenS))
          ((pre.map Prod.snd).reverse ++ (d :: seenD)) <;> simp

/-- C4 amended: duplicate detection is not batched.  For any error-free
prefix of the batch (no repeats among its own sources or among its own
destinations), the first offending pair aborts validation immediately with
exactly that one duplicate, whatever follows in the batch: a repeated source
is reported as the duplicate source, and otherwise a repeated destination as
the duplicate destination; the rest of the batch is never examined. -/
theorem c4_amended_first_duplicate (scratchOf : MPath → MPath)
    (pre : List (MPath × MPath)) (s d : MPath) (post : List (MPath × MPath))
    (hs : (pre.map Prod.fst).Nodup) (hd : (pre.map Prod.snd).Nodup) :
    (s ∈ pre.map Prod.fst →
      buildPairs scratchOf (pre ++ (s, d) :: post) [] []
        = Except.error (DupError.dupSrc s))
    ∧ (s ∉ pre.map Prod.fst → d ∈ pre.map Prod.snd →
      buildPairs scratchOf (pre ++ (s, d) :: post) [] []
        = Except.error (DupError.dupDst d)) := by
  have hbase := buildPairs_append scratchOf pre [] [] ((s, d) :: post) hs
    (by intro x _ hmem; simp at hmem) hd (by intro x _ hmem; simp at hmem)
  constructor
  · intro hmem
    have hmem' : s ∈ (pre.map Prod.fst).reverse ++ ([] : List MPath) := by
      simpa using hmem
    rw [hbase, buildPairs, if_pos hmem']
  · intro hnot hmem
    have hnot' : s ∉ (pre.map Prod.fst).reverse ++ ([] : List MPath) := by
      simpa using hnot
    have hmem' : d ∈ (pre.map Prod.snd).reverse ++ ([] : List MPath) := by
      simpa using hmem
    rw [hbase, buildPairs, if_neg hnot', if_pos hmem']

/-- Witness for C4 at a concrete batch whose duplicate source sits at a
non-adjacent position, discharging the cleanliness and membership
hypotheses. -/
theorem c4_amended_first_duplicate_witness :
    ([(cpa, cpx), (cpb, cpy)].map Prod.fst).Nodup
    ∧ ([(cpa, cpx), (cpb, cpy)].map Prod.snd).Nodup
    ∧ cpa ∈ [(cpa, cpx), (cpb, cpy)].map Prod.fst
    ∧ buildPairs cScratch ([(cpa, cpx), (cpb, cpy)] ++ (cpa, cpy) :: []) [] []
        = Except.error (DupError.dupSrc cpa) := by
  refine ⟨by decide, by decide, by decide, ?_⟩
  exact (c4_amended_first_duplicate cScratch [(cpa, cpx), (cpb, cpy)] cpa cpy []
    (by decide) (by decide)).1 (by decide)

/-- A small filesystem: the lists of existing directory paths and existing
file paths. -/
structure FS where
  dirs : List MPath
  files : List MPath
deriving DecidableEq, Repr

/-- Whether q lies strictly inside the subtree rooted at the first path. -/
def strictUnder (root q : MPath) : Bool := root.isPrefixOf q && !(root == q)

/-- All existing paths of the filesystem. -/
def FS.entries (fs : FS) : List MPath := fs.dirs ++ fs.files

/-- Whether directory p has an entry strictly below it, which is exactly what
makes fs::remove_dir fail. -/
def FS.nonEmptyDir (fs : FS) (p : MPath) : Bool :=
  fs.entries.any (fun q => strictUnder p q)

/-- Failure cases of the filesystem calls used by
copy_and_remove_file_or_dir. -/
inductive FsFailure where
  | alreadyExists (p : MPath)
  | dirNotEmpty (p : MPath)
  | notFound (p : MPath)
deriving DecidableEq, Repr

/-- Stateful model of copy_and_remove_file_or_dir (main.rs lines 484-502).
For a directory origin the code calls fs::create_dir on the target, which
fails if the target already exists, and then, in move mode, fs::remove_dir on
the origin, which fails if anything is left inside it; the contents of the
origin directory are never copied.  For a file origin the code copies the
bytes (fs::copy overwrites an existing target) and then, in move mode,
unlinks the origin.  The error carries the path the Rust code reports;
move_path feeds any error to err!, which aborts the whole run.  The
parent-must-exist precondition of fs::create_dir is not modelled. -/
def copy_and_remove_file_or_dir (flags : Flags) (fs : FS) (f t : MPath) :
    Except (MPath × FsFailure) FS :=
  if f ∈ fs.dirs then
    if t ∈ fs.dirs ∨ t ∈ fs.files then
      Except.error (t, FsFailure.alreadyExists t)
    else
      if flags.mcp then Except.ok { fs with dirs := t :: fs.dirs }
      else if FS.nonEmptyDir { fs with dirs := t :: fs.dirs } f then
        Except.error (f, FsFailure.dirNotEmpty f)
      else Except.ok { fs with dirs := (t :: fs.dirs).erase f }
  else if f ∈ fs.files then
    if flags.mcp then
      Except.ok { fs with
        files := if t ∈ fs.files then fs.files else t :: fs.files }
    else
      Except.ok { fs with
        files := (if t ∈ fs.files then fs.files else t :: fs.files).erase f }
  else Except.error (f, FsFailure.notFound f)

/-- C10: moving a directory never transfers its contents.  In move mode, when
the origin is a directory, a successful call leaves the target directory in
place with nothing new inside it (anything strictly under the target already
existed before), leaves the files untouched, removes the origin, and can only
succeed when the origin had no entry strictly inside it; and when the origin
still has any entry inside it the call fails, which aborts the run through
err! in move_path.  Models main.rs lines 484-502. -/
theorem c10_dir_move_no_contents (flags : Flags) (fs : FS) (f t : MPath)
    (hm : flags.mcp = false) (hf : f ∈ fs.dirs) (hnd : fs.dirs.Nodup) :
    (∀ fs', copy_and_remove_file_or_dir flags fs f t = Except.ok fs' →
      t ∈ fs'.dirs
      ∧ f ∉ fs'.dirs
      ∧ fs.nonEmptyDir f = false
      ∧ fs'.files = fs.files
      ∧ (∀ q ∈ fs'.entries, strictUnder t q = true → q ∈ fs.entries))
    ∧ (fs.nonEmptyDir f = true →
        ∃ e, copy_and_remove_file_or_dir flags fs f t = Except.error e) := by
  have hsplit : FS.nonEmptyDir { fs with dirs := t :: fs.dirs } f
      = (strictUnder f t || fs.nonEmptyDir f) := by
    simp [FS.nonEmptyDir, FS.entries, List.any_cons, List.any_append]
  constructor
  · intro fs' hok
    rw [copy_and_remove_file_or_dir, if_pos hf] at hok
    by_cases ht : t ∈ fs.dirs ∨ t ∈ fs.files
    · rw [if_pos ht] at hok
      exact absurd hok (by simp)
    · rw [if_neg ht, hm] at hok
      simp only [Bool.false_eq_true, if_false] at hok
      by_cases hne : FS.nonEmptyDir { fs with dirs := t :: fs.dirs } f = true
      · rw [if_pos hne] at hok
        exact absurd hok (by simp)
      · rw [if_neg hne] at hok
        have hft : f ≠ t := fun h => ht (Or.inl (h ▸ hf))
        have htf : t ≠ f := fun h => hft h.symm
        have herase : (t :: fs.dirs).erase f = t :: fs.dirs.erase f :=
          List.erase_cons_tail (by simp [htf])
        have hfs' : fs' = { fs with dirs := (t :: fs.dirs).erase f } := by
          cases hok; rfl
        subst hfs'
        have hempty : fs.nonEmptyDir f = false := by
          rw [Bool.not_eq_true, hsplit] at hne
          exact (Bool.or_eq_false_iff.1 hne).2
        refine ⟨by simp [herase], ?_, hempty, rfl, ?_⟩
        · simp only [herase, List.mem_cons]
          rintro (h | h)
          · exact hft h
          · exact absurd ((hnd.mem_erase_iff).1 h).1 (by simp)
        · intro q hq hunder
          simp only [FS.entries, herase, List.mem_append, List.mem_cons] at hq
          rcases hq with (rfl | hq) | hq
          · exact absurd hunder (by simp [strictUnder])
          · exact List.mem_append.2 (Or.inl (List.mem_of_mem_erase hq))
          · exact List.mem_append.2 (Or.inr hq)
  · intro hne
    rw [copy_and_remove_file_or_dir, if_pos hf]
    by_cases ht : t ∈ fs.dirs ∨ t ∈ fs.files
    · exact ⟨(t, FsFailure.alreadyExists t), by rw [if_pos ht]⟩
    · have hne1 : FS.nonEmptyDir { fs with dirs := t :: fs.dirs } f = true := by
        rw [hsplit, hne, Bool.or_true]
      refine ⟨(f, FsFailure.dirNotEmpty f), ?_⟩
      rw [if_neg ht, hm]
      simp only [Bool.false_eq_true, if_false]
      rw [if_pos hne1]

/-- Concrete filesystem for the C10 witness: one empty directory /d. -/
def cfs0 : FS := { dirs := [[PComp.rootDir, PComp.normal "d"]], files := [] }

/-- Concrete origin directory /d. -/
def cf0 : MPath := [PComp.rootDir, PComp.normal "d"]

/-- Concrete target directory /e. -/
def ct0 : MPath := [PComp.rootDir, PComp.normal "e"]

/-- Witness for C10: moving the empty directory /d to /e in move mode
succeeds, the target exists afterwards and is empty, the origin is gone and
the files are untouched. -/
theorem c10_dir_move_no_contents_witness :
    defaultFlags.mcp = false ∧ cf0 ∈ cfs0.dirs ∧ cfs0.dirs.Nodup
    ∧ (ct0 ∈ (FS.mk [ct0] []).dirs
       ∧ cf0 ∉ (FS.mk [ct0] []).dirs
       ∧ cfs0.nonEmptyDir cf0 = false
       ∧ (FS.mk [ct0] []).files = cfs0.files
       ∧ (∀ q ∈ (FS.mk [ct0] []).entries, strictUnder ct0 q = true →
            q ∈ cfs0.entries)) := by
  refine ⟨rfl, by decide, by decide, ?_⟩
  exact (c10_dir_move_no_contents defaultFlags cfs0 cf0 ct0 rfl (by decide)
    (by decide)).1 (FS.mk [ct0] []) rfl

end Mmv
